import Mathlib

set_option maxHeartbeats 1000000

/-!
Shallow embedding of the event canister in
`src/icp_rust_boilerplate_backend/src/lib.rs`: the `Event` record, the
candid-style codec with its 1024-byte bound, the stable counter and record
table, and the five request operations, together with proofs of the
specified properties.
-/

/-- Little-endian byte encoding of a natural number into `w` bytes. -/
def natToBytesLE : Nat → Nat → List Nat
  | 0, _ => []
  | w + 1, v => v % 256 :: natToBytesLE w (v / 256)

/-- Little-endian byte decoding. -/
def bytesToNatLE : List Nat → Nat
  | [] => 0
  | b :: bs => b + 256 * bytesToNatLE bs

/-- Read exactly `n` bytes off the front of a buffer. -/
def readBytes : Nat → List Nat → Option (List Nat × List Nat)
  | 0, l => some ([], l)
  | _ + 1, [] => none
  | n + 1, b :: l => (readBytes n l).map fun p => (b :: p.1, p.2)

/-- Encode a `u64` value as 8 little-endian bytes. -/
def encU64 (v : Nat) : List Nat := natToBytesLE 8 v

/-- Decode a `u64` value from the front of a buffer. -/
def decU64 (l : List Nat) : Option (Nat × List Nat) :=
  (readBytes 8 l).map fun p => (bytesToNatLE p.1, p.2)

/-- Encode one character as 4 little-endian bytes of its code point. -/
def encChar (c : Char) : List Nat := natToBytesLE 4 c.toNat

/-- Decode `n` characters from the front of a buffer. -/
def decChars : Nat → List Nat → Option (List Char × List Nat)
  | 0, l => some ([], l)
  | n + 1, l =>
    (readBytes 4 l).bind fun p =>
      (decChars n p.2).map fun q => (Char.ofNat (bytesToNatLE p.1) :: q.1, q.2)

/-- Encode a string: 8-byte length prefix, then 4 bytes per character. -/
def encString (s : String) : List Nat :=
  encU64 s.length ++ (s.data.map encChar).flatten

/-- Decode a string from the front of a buffer. -/
def decString (l : List Nat) : Option (String × List Nat) :=
  (decU64 l).bind fun p =>
    (decChars p.1 p.2).map fun q => (String.mk q.1, q.2)

/-- Encode a list of strings: 8-byte count prefix, then each string. -/
def encStrList (l : List String) : List Nat :=
  encU64 l.length ++ (l.map encString).flatten

/-- Decode `n` strings from the front of a buffer. -/
def decStrings : Nat → List Nat → Option (List String × List Nat)
  | 0, l => some ([], l)
  | n + 1, l =>
    (decString l).bind fun p =>
      (decStrings n p.2).map fun q => (p.1 :: q.1, q.2)

/-- Decode a length-prefixed list of strings from the front of a buffer. -/
def decStrList (l : List Nat) : Option (List String × List Nat) :=
  (decU64 l).bind fun p => decStrings p.1 p.2

/-- Encode an `Option u64`: a tag byte, then the value when present. -/
def encOptU64 : Option Nat → List Nat
  | none => [0]
  | some v => 1 :: encU64 v

/-- Decode an `Option u64` from the front of a buffer. -/
def decOptU64 : List Nat → Option (Option Nat × List Nat)
  | 0 :: rest => some (none, rest)
  | 1 :: rest => (decU64 rest).map fun p => (some p.1, p.2)
  | _ => none

theorem length_natToBytesLE (w v : Nat) : (natToBytesLE w v).length = w := by
  induction w generalizing v with
  | zero => rfl
  | succ w ih => simp [natToBytesLE, ih]

theorem natToBytesLE_lt (w v : Nat) : ∀ b ∈ natToBytesLE w v, b < 256 := by
  induction w generalizing v with
  | zero => simp [natToBytesLE]
  | succ w ih =>
    intro b hb
    simp only [natToBytesLE, List.mem_cons] at hb
    rcases hb with h | h
    · exact h ▸ Nat.mod_lt _ (by norm_num)
    · exact ih _ b h

theorem bytesToNatLE_natToBytesLE (w v : Nat) :
    bytesToNatLE (natToBytesLE w v) = v % 256 ^ w := by
  induction w generalizing v with
  | zero => simp [natToBytesLE, bytesToNatLE, Nat.mod_one]
  | succ w ih =>
    rw [natToBytesLE, bytesToNatLE, ih]
    have hp : (256 : Nat) ^ (w + 1) = 256 * 256 ^ w := by ring
    rw [hp, Nat.mod_mul]

theorem readBytes_append (l1 l2 : List Nat) :
    readBytes l1.length (l1 ++ l2) = some (l1, l2) := by
  induction l1 with
  | nil => rfl
  | cons b l ih => simp [readBytes, ih]

theorem decU64_enc (v : Nat) (r : List Nat) :
    decU64 (encU64 v ++ r) = some (v % 2 ^ 64, r) := by
  have h8 := readBytes_append (natToBytesLE 8 v) r
  rw [length_natToBytesLE] at h8
  rw [decU64, encU64, h8]
  simp [bytesToNatLE_natToBytesLE]

theorem char_toNat_lt (c : Char) : c.toNat < 2 ^ 32 :=
  UInt32.toNat_lt c.val

theorem decChars_enc (cs : List Char) (r : List Nat) :
    decChars cs.length ((cs.map encChar).flatten ++ r) = some (cs, r) := by
  induction cs with
  | nil => rfl
  | cons c cs ih =>
    have h4 := readBytes_append (natToBytesLE 4 c.toNat) ((cs.map encChar).flatten ++ r)
    rw [length_natToBytesLE] at h4
    have hc : c.toNat % 4294967296 = c.toNat :=
      Nat.mod_eq_of_lt (lt_of_lt_of_le (char_toNat_lt c) (by norm_num))
    rw [List.length_cons, List.map_cons, List.flatten_cons, List.append_assoc,
      decChars, encChar, h4]
    simp [ih, bytesToNatLE_natToBytesLE, hc, Char.ofNat_toNat]

theorem decString_enc (s : String) (r : List Nat) (h : s.length < 2 ^ 64) :
    decString (encString s ++ r) = some (s, r) := by
  have hlen : s.length % 2 ^ 64 = s.length := Nat.mod_eq_of_lt h
  have hdata : s.length = s.data.length := rfl
  rw [encString, List.append_assoc, decString, decU64_enc, hlen]
  simp only [Option.some_bind]
  rw [hdata, decChars_enc]
  simp

theorem decStrings_enc (ss : List String) (r : List Nat)
    (h : ∀ s ∈ ss, s.length < 2 ^ 64) :
    decStrings ss.length ((ss.map encString).flatten ++ r) = some (ss, r) := by
  induction ss with
  | nil => rfl
  | cons s ss ih =>
    rw [List.length_cons, List.map_cons, List.flatten_cons, List.append_assoc,
      decStrings, decString_enc s _ (h s (by simp))]
    simp only [Option.some_bind]
    rw [ih fun x hx => h x (by simp [hx])]
    rfl

theorem decStrList_enc (ss : List String) (r : List Nat)
    (hn : ss.length < 2 ^ 64) (h : ∀ s ∈ ss, s.length < 2 ^ 64) :
    decStrList (encStrList ss ++ r) = some (ss, r) := by
  rw [encStrList, List.append_assoc, decStrList, decU64_enc, Nat.mod_eq_of_lt hn]
  simp only [Option.some_bind]
  exact decStrings_enc ss r h

theorem decOptU64_enc (u : Option Nat) (hu : u.getD 0 < 2 ^ 64) :
    decOptU64 (encOptU64 u) = some (u, []) := by
  cases u with
  | none => rfl
  | some v =>
    have : encU64 v ++ ([] : List Nat) = encU64 v := List.append_nil _
    rw [encOptU64, decOptU64, ← this, decU64_enc]
    simp only [Option.getD_some] at hu
    have hv : v % 2 ^ 64 = v := Nat.mod_eq_of_lt hu
    simp [hv]
    omega

/-- The `Event` record stored by the canister (`struct Event` in `lib.rs`).
Strings are Lean `String`s, `u64` fields are `Nat`s kept below `2 ^ 64`,
and the caller principal is an opaque `String` as in `caller().to_string()`. -/
structure Event where
  id : Nat
  eventDescription : String
  owner : String
  eventTitle : String
  eventLocation : String
  eventCardImgUrl : String
  attendees : List String
  created_at : Nat
  updated_at : Option Nat
deriving DecidableEq, Repr

/-- The request payload (`struct EventPayload` in `lib.rs`). -/
structure EventPayload where
  eventDescription : String
  eventTitle : String
  eventLocation : String
  eventCardImgUrl : String
deriving DecidableEq, Repr

/-- Modelled from the spec: the codec (`impl Storable for Event`, which
delegates to the candid `Encode!` macro not present in the repository) is a
deterministic self-contained binary encoding of an `Event`.  Fields are
encoded in declaration order; integers as 8 little-endian bytes, strings
with an 8-byte length prefix and 4 bytes per character, the attendee list
with an 8-byte count prefix, and the optional timestamp with a tag byte. -/
def encodeEvent (e : Event) : List Nat :=
  encU64 e.id ++
    (encString e.eventDescription ++
      (encString e.owner ++
        (encString e.eventTitle ++
          (encString e.eventLocation ++
            (encString e.eventCardImgUrl ++
              (encStrList e.attendees ++
                (encU64 e.created_at ++ encOptU64 e.updated_at)))))))

/-- Modelled from the spec: the decoder (`from_bytes`, delegating to the
candid `Decode!` macro not present in the repository), the exact left
inverse of `encodeEvent`; buffers it cannot parse are rejected. -/
def decodeEvent (l : List Nat) : Option Event :=
  (decU64 l).bind fun p1 =>
  (decString p1.2).bind fun p2 =>
  (decString p2.2).bind fun p3 =>
  (decString p3.2).bind fun p4 =>
  (decString p4.2).bind fun p5 =>
  (decString p5.2).bind fun p6 =>
  (decStrList p6.2).bind fun p7 =>
  (decU64 p7.2).bind fun p8 =>
  (decOptU64 p8.2).bind fun p9 =>
  if p9.2 = [] then
    some { id := p1.1, eventDescription := p2.1, owner := p3.1,
           eventTitle := p4.1, eventLocation := p5.1, eventCardImgUrl := p6.1,
           attendees := p7.1, created_at := p8.1, updated_at := p9.1 }
  else none

/-- The numeric fields and lengths of the event fit in `u64`/`usize`, as they
do by construction in the Rust source. -/
def ValidEvent (e : Event) : Prop :=
  e.id < 2 ^ 64 ∧ e.created_at < 2 ^ 64 ∧ e.updated_at.getD 0 < 2 ^ 64 ∧
  e.eventDescription.length < 2 ^ 64 ∧ e.owner.length < 2 ^ 64 ∧
  e.eventTitle.length < 2 ^ 64 ∧ e.eventLocation.length < 2 ^ 64 ∧
  e.eventCardImgUrl.length < 2 ^ 64 ∧ e.attendees.length < 2 ^ 64 ∧
  ∀ a ∈ e.attendees, a.length < 2 ^ 64

instance (e : Event) : Decidable (ValidEvent e) := by
  unfold ValidEvent; infer_instance

theorem decodeEvent_encodeEvent (e : Event) (hv : ValidEvent e) :
    decodeEvent (encodeEvent e) = some e := by
  obtain ⟨h1, h2, h3, h4, h5, h6, h7, h8, h9, h10⟩ := hv
  rw [encodeEvent, decodeEvent, decU64_enc, Nat.mod_eq_of_lt h1]
  simp only [Option.some_bind]
  rw [decString_enc _ _ h4]
  simp only [Option.some_bind]
  rw [decString_enc _ _ h5]
  simp only [Option.some_bind]
  rw [decString_enc _ _ h6]
  simp only [Option.some_bind]
  rw [decString_enc _ _ h7]
  simp only [Option.some_bind]
  rw [decString_enc _ _ h8]
  simp only [Option.some_bind]
  rw [decStrList_enc _ _ h9 h10]
  simp only [Option.some_bind]
  rw [decU64_enc, Nat.mod_eq_of_lt h2]
  simp only [Option.some_bind]
  rw [decOptU64_enc _ h3]
  simp only [Option.some_bind]
  rfl

/-- The canister error enum (`enum Error` in `lib.rs`): the source defines
only a `NotFound` variant. -/
inductive Error where
  | NotFound (msg : String)
deriving DecidableEq, Repr

/-- An unrecoverable invariant violation: per the spec it aborts the whole
request (a canister trap) instead of surfacing as a domain error. -/
inductive Fatal where
  | valueTooLarge
deriving DecidableEq, Repr

/-- Contents of the stable `StableBTreeMap<u64, Event, _>` as an association
list from id to encoded record. -/
abbrev Storage := List (Nat × Event)

/-- Modelled from the spec: `StableBTreeMap::get` — lookup with no side
effect (ic-stable-structures is not part of the repository). -/
def mapGet : Storage → Nat → Option Event
  | [], _ => none
  | (k, v) :: rest, id => if k = id then some v else mapGet rest id

/-- Modelled from the spec: `StableBTreeMap::insert` — inserts or
overwrites the record stored under the key. -/
def mapInsert : Storage → Nat → Event → Storage
  | [], id, e => [(id, e)]
  | (k, v) :: rest, id, e =>
    if k = id then (id, e) :: rest else (k, v) :: mapInsert rest id e

/-- Modelled from the spec: `StableBTreeMap::remove` — deletes and returns
the prior value, or none if absent. -/
def mapRemove : Storage → Nat → Option Event × Storage
  | [], _ => (none, [])
  | (k, v) :: rest, id =>
    if k = id then (some v, rest)
    else
      let p := mapRemove rest id
      (p.1, (k, v) :: p.2)

/-- The persistent canister state: the `ID_COUNTER` stable cell (a `u64`,
initialized to 0) and the `STORAGE` stable map.  Both live in stable
memory, so a restart reloads exactly this state. -/
structure State where
  counter : Nat
  storage : Storage
deriving DecidableEq, Repr

/-- The state of a freshly initialized canister: counter cell created with
initial value 0, empty record table. -/
def freshState : State := { counter := 0, storage := [] }

/-- `fn do_insert(event: &Event)` — inserts the event under `event.id`.
Modelled from the spec: the table's `BoundedStorable::MAX_SIZE = 1024`
bound makes an oversized encoding trap rather than store or truncate. -/
def do_insert (event : Event) (st : Storage) : Except Fatal Storage :=
  if (encodeEvent event).length ≤ 1024 then .ok (mapInsert st event.id event)
  else .error .valueTooLarge

/-- `fn _get_event(id: &u64)` — raw storage lookup. -/
def _get_event (id : Nat) (s : State) : Option Event :=
  mapGet s.storage id

/-- `fn get_event(id: u64)` — query returning the event or `NotFound`. -/
def get_event (id : Nat) (s : State) : Except Error Event :=
  match _get_event id s with
  | some message => .ok message
  | none => .error (.NotFound ("Event with id=" ++ toString id ++ " not found"))

/-- The record literal built inside `fn create_event`: owner is the
ambient `caller()`, `created_at` the ambient `time()`, attendees empty. -/
def createdEvent (caller : String) (time : Nat) (payload : EventPayload)
    (id : Nat) : Event :=
  { id := id, eventDescription := payload.eventDescription, owner := caller,
    eventTitle := payload.eventTitle, eventLocation := payload.eventLocation,
    eventCardImgUrl := payload.eventCardImgUrl, attendees := [],
    created_at := time, updated_at := none }

/-- `fn create_event(payload: EventPayload)`.  The ambient `caller()` and
`time()` are passed explicitly.  `ID_COUNTER.set(current_value + 1)` stores
the incremented `u64` (wrapping at `2 ^ 64`) and returns the previous
value, which becomes the new id.  A trap (`Except.error`) rolls the whole
call back. -/
def create_event (caller : String) (time : Nat) (payload : EventPayload)
    (s : State) : Except Fatal (Option Event × State) :=
  let current_value := s.counter
  let id := current_value
  let event := createdEvent caller time payload id
  match do_insert event s.storage with
  | .ok st => .ok (some event, { counter := (current_value + 1) % 2 ^ 64, storage := st })
  | .error f => .error f

/-- `fn update_event(id: u64, payload: EventPayload)`.  The source never
reads `caller()` here; the ambient caller is still passed to mirror that
every call has one. -/
def update_event (caller : String) (time : Nat) (id : Nat)
    (payload : EventPayload) (s : State) :
    Except Fatal (Except Error Event × State) :=
  match mapGet s.storage id with
  | some event0 =>
    let event : Event :=
      { event0 with eventDescription := payload.eventDescription,
                    eventTitle := payload.eventTitle,
                    eventLocation := payload.eventLocation,
                    eventCardImgUrl := payload.eventCardImgUrl,
                    updated_at := some time }
    match do_insert event s.storage with
    | .ok st => .ok (.ok event, { s with storage := st })
    | .error f => .error f
  | none =>
    .ok (.error (.NotFound ("couldn\x27t update an event with id=" ++ toString id
      ++ ". event not found")), s)

/-- `fn attend_event(id: u64)` — pushes `caller().to_string()` onto the
attendee vector unconditionally and re-inserts. -/
def attend_event (caller : String) (id : Nat) (s : State) :
    Except Fatal (Except Error Event × State) :=
  match mapGet s.storage id with
  | some event0 =>
    let user := caller
    let attendees := event0.attendees ++ [user]
    let event : Event := { event0 with attendees := attendees }
    match do_insert event s.storage with
    | .ok st => .ok (.ok event, { s with storage := st })
    | .error f => .error f
  | none =>
    .ok (.error (.NotFound ("couldn\x27t update an event with id=" ++ toString id
      ++ ". event not found")), s)

/-- `fn delete_event(id: u64)` — removes the record for any caller and
returns it, or `NotFound`.  The source never reads `caller()` here. -/
def delete_event (caller : String) (id : Nat) (s : State) :
    Except Error Event × State :=
  match mapRemove s.storage id with
  | (some message, st) => (.ok message, { s with storage := st })
  | (none, _) =>
    (.error (.NotFound ("couldn\x27t delete event with id=" ++ toString id
      ++ ". event not found.")), s)

/-- One external request against the canister. -/
inductive Op where
  | create (caller : String) (time : Nat) (payload : EventPayload)
  | update (caller : String) (time : Nat) (id : Nat) (payload : EventPayload)
  | attend (caller : String) (id : Nat)
  | delete (caller : String) (id : Nat)
  | read (id : Nat)
  | restart
deriving DecidableEq, Repr

/-- Execute one request.  A trapped call rolls back every state change of
that call (IC message semantics); `restart` reloads stable memory, which
holds exactly the persisted counter and table, so it leaves the state
unchanged.  The second component is the id handed out when the request was
a completed `create_event`. -/
def stepOp (s : State) : Op → State × Option Nat
  | .create c t p =>
    match create_event c t p s with
    | .ok (some e, s1) => (s1, some e.id)
    | .ok (none, s1) => (s1, none)
    | .error _ => (s, none)
  | .update c t id p =>
    match update_event c t id p s with
    | .ok (_, s1) => (s1, none)
    | .error _ => (s, none)
  | .attend c id =>
    match attend_event c id s with
    | .ok (_, s1) => (s1, none)
    | .error _ => (s, none)
  | .delete c id => ((delete_event c id s).2, none)
  | .read _ => (s, none)
  | .restart => (s, none)

/-- Run a request sequence; final state plus the created ids in order. -/
def runOps (s : State) : List Op → State × List Nat
  | [] => (s, [])
  | op :: ops =>
    let p := stepOp s op
    let q := runOps p.1 ops
    (q.1, p.2.toList ++ q.2)

theorem mapGet_mapInsert_self (st : Storage) (id : Nat) (e : Event) :
    mapGet (mapInsert st id e) id = some e := by
  induction st with
  | nil => simp [mapInsert, mapGet]
  | cons kv rest ih =>
    by_cases h : kv.1 = id <;> simp [mapInsert, mapGet, h, ih]

theorem mapGet_mapInsert_ne (st : Storage) (id id2 : Nat) (e : Event)
    (h : id2 ≠ id) : mapGet (mapInsert st id e) id2 = mapGet st id2 := by
  have hne : ¬ id = id2 := fun hh => h hh.symm
  induction st with
  | nil => simp [mapInsert, mapGet, hne]
  | cons kv rest ih =>
    obtain ⟨k, v⟩ := kv
    by_cases hk : k = id
    · subst hk
      simp [mapInsert, mapGet, hne]
    · by_cases hk2 : k = id2 <;> simp [mapInsert, mapGet, hk, hk2, ih, h]

theorem mem_mapInsert (st : Storage) (id : Nat) (e : Event) (p : Nat × Event)
    (hp : p ∈ mapInsert st id e) : p = (id, e) ∨ p ∈ st := by
  induction st with
  | nil => simpa [mapInsert] using hp
  | cons kv rest ih =>
    obtain ⟨k, v⟩ := kv
    by_cases hk : k = id
    · rw [mapInsert, if_pos hk] at hp
      rcases List.mem_cons.mp hp with h1 | h1
      · exact Or.inl h1
      · exact Or.inr (List.mem_cons_of_mem _ h1)
    · rw [mapInsert, if_neg hk] at hp
      rcases List.mem_cons.mp hp with h1 | h1
      · exact Or.inr (h1 ▸ List.mem_cons_self _ _)
      · rcases ih h1 with h2 | h2
        · exact Or.inl h2
        · exact Or.inr (List.mem_cons_of_mem _ h2)

theorem mem_mapRemove_snd (st : Storage) (id : Nat) (p : Nat × Event)
    (hp : p ∈ (mapRemove st id).2) : p ∈ st := by
  induction st with
  | nil => simpa [mapRemove] using hp
  | cons kv rest ih =>
    obtain ⟨k, v⟩ := kv
    by_cases hk : k = id
    · simp only [mapRemove, if_pos hk] at hp
      exact List.mem_cons_of_mem _ hp
    · simp only [mapRemove, if_neg hk] at hp
      rcases List.mem_cons.mp hp with h1 | h1
      · exact h1 ▸ List.mem_cons_self _ _
      · exact List.mem_cons_of_mem _ (ih h1)

theorem mapRemove_fst_mem (st : Storage) (id : Nat) (e : Event)
    (h : (mapRemove st id).1 = some e) : (id, e) ∈ st := by
  induction st with
  | nil => simp [mapRemove] at h
  | cons kv rest ih =>
    obtain ⟨k, v⟩ := kv
    by_cases hk : k = id
    · simp only [mapRemove, if_pos hk] at h
      cases h
      exact hk ▸ List.mem_cons_self _ _
    · simp only [mapRemove, if_neg hk] at h
      exact List.mem_cons_of_mem _ (ih h)

theorem mapGet_eq_some_mem (st : Storage) (id : Nat) (e : Event)
    (h : mapGet st id = some e) : (id, e) ∈ st := by
  induction st with
  | nil => simp [mapGet] at h
  | cons kv rest ih =>
    obtain ⟨k, v⟩ := kv
    by_cases hk : k = id
    · simp only [mapGet, if_pos hk] at h
      cases h
      exact hk ▸ List.mem_cons_self _ _
    · simp only [mapGet, if_neg hk] at h
      exact List.mem_cons_of_mem _ (ih h)

theorem mapGet_eq_none_of_not_mem (st : Storage) (id : Nat)
    (h : id ∉ st.map Prod.fst) : mapGet st id = none := by
  induction st with
  | nil => rfl
  | cons kv rest ih =>
    obtain ⟨k, v⟩ := kv
    simp only [List.map_cons, List.mem_cons] at h
    push_neg at h
    rw [mapGet, if_neg (fun hh => h.1 hh.symm)]
    exact ih h.2

theorem do_insert_ok (e : Event) (st st1 : Storage)
    (h : do_insert e st = .ok st1) :
    st1 = mapInsert st e.id e ∧ (encodeEvent e).length ≤ 1024 := by
  by_cases hsz : (encodeEvent e).length ≤ 1024
  · rw [do_insert, if_pos hsz] at h
    injection h with h2
    exact ⟨h2.symm, hsz⟩
  · rw [do_insert, if_neg hsz] at h
    exact Except.noConfusion h

theorem do_insert_oversize (e : Event) (st : Storage)
    (h : 1024 < (encodeEvent e).length) :
    do_insert e st = .error .valueTooLarge := by
  rw [do_insert, if_neg (by omega)]

theorem create_event_ok (c : String) (t : Nat) (p : EventPayload) (s : State)
    (x : Option Event × State) (h : create_event c t p s = .ok x) :
    x.1 = some (createdEvent c t p s.counter) ∧
    x.2.counter = (s.counter + 1) % 2 ^ 64 ∧
    x.2.storage = mapInsert s.storage s.counter (createdEvent c t p s.counter) ∧
    (encodeEvent (createdEvent c t p s.counter)).length ≤ 1024 := by
  simp only [create_event] at h
  split at h
  next st heq =>
    obtain ⟨hst, hsz⟩ := do_insert_ok _ _ _ heq
    injection h with h2
    subst h2
    have hid : (createdEvent c t p s.counter).id = s.counter := rfl
    rw [hst, hid]
    exact ⟨rfl, rfl, rfl, hsz⟩
  next f heq => exact Except.noConfusion h

theorem update_event_ok_cases (c : String) (t : Nat) (id : Nat)
    (p : EventPayload) (s : State) (x : Except Error Event × State)
    (h : update_event c t id p s = .ok x) :
    (∃ event0 st, mapGet s.storage id = some event0 ∧
      do_insert
        { event0 with eventDescription := p.eventDescription,
                      eventTitle := p.eventTitle,
                      eventLocation := p.eventLocation,
                      eventCardImgUrl := p.eventCardImgUrl,
                      updated_at := some t } s.storage = .ok st ∧
      x.2 = { s with storage := st }) ∨
    (mapGet s.storage id = none ∧ x.2 = s) := by
  simp only [update_event] at h
  split at h
  next event0 heq =>
    split at h
    next st heq2 =>
      injection h with h2
      subst h2
      exact Or.inl ⟨event0, st, heq, heq2, rfl⟩
    next f heq2 => exact Except.noConfusion h
  next heq =>
    injection h with h2
    subst h2
    exact Or.inr ⟨heq, rfl⟩

theorem attend_event_ok_cases (c : String) (id : Nat) (s : State)
    (x : Except Error Event × State) (h : attend_event c id s = .ok x) :
    (∃ event0 st, mapGet s.storage id = some event0 ∧
      do_insert { event0 with attendees := event0.attendees ++ [c] }
        s.storage = .ok st ∧
      x.2 = { s with storage := st }) ∨
    (mapGet s.storage id = none ∧ x.2 = s) := by
  simp only [attend_event] at h
  split at h
  next event0 heq =>
    split at h
    next st heq2 =>
      injection h with h2
      subst h2
      exact Or.inl ⟨event0, st, heq, heq2, rfl⟩
    next f heq2 => exact Except.noConfusion h
  next heq =>
    injection h with h2
    subst h2
    exact Or.inr ⟨heq, rfl⟩

theorem delete_event_cases (c : String) (id : Nat) (s : State) :
    ((delete_event c id s).2 = { s with storage := (mapRemove s.storage id).2 } ∧
      ∃ m, (mapRemove s.storage id).1 = some m ∧ (delete_event c id s).1 = .ok m) ∨
    ((delete_event c id s).2 = s ∧ (mapRemove s.storage id).1 = none) := by
  rcases hm : mapRemove s.storage id with ⟨r, st⟩
  cases r with
  | some m =>
    left
    refine ⟨?_, m, ?_, ?_⟩
    · simp [delete_event, hm]
    · rfl
    · simp [delete_event, hm]
  | none =>
    right
    refine ⟨?_, ?_⟩
    · simp [delete_event, hm]
    · rfl

/-- Every record in the table fits the 1024-byte encoding bound. -/
def SizeInv (st : Storage) : Prop :=
  ∀ p ∈ st, (encodeEvent p.2).length ≤ 1024

theorem do_insert_sizeInv (e : Event) (st st1 : Storage)
    (h : do_insert e st = .ok st1) (hs : SizeInv st) : SizeInv st1 := by
  obtain ⟨hst, hsz⟩ := do_insert_ok _ _ _ h
  subst hst
  intro p hp
  rcases mem_mapInsert _ _ _ _ hp with h1 | h1
  · rw [h1]
    exact hsz
  · exact hs p h1

theorem stepOp_sizeInv (s : State) (op : Op) (hs : SizeInv s.storage) :
    SizeInv (stepOp s op).1.storage := by
  cases op with
  | create c t p =>
    simp only [stepOp]
    cases hc : create_event c t p s with
    | error f => exact hs
    | ok x =>
      obtain ⟨oe, s1⟩ := x
      obtain ⟨h1, h2, h3, h4⟩ := create_event_ok c t p s (oe, s1) hc
      cases oe with
      | some e =>
        show SizeInv s1.storage
        rw [h3]
        intro p hp
        rcases mem_mapInsert _ _ _ _ hp with hh | hh
        · rw [hh]
          exact h4
        · exact hs p hh
      | none =>
        show SizeInv s1.storage
        rw [h3]
        intro p hp
        rcases mem_mapInsert _ _ _ _ hp with hh | hh
        · rw [hh]
          exact h4
        · exact hs p hh
  | update c t id p =>
    simp only [stepOp]
    cases hu : update_event c t id p s with
    | error f => exact hs
    | ok x =>
      obtain ⟨r, s1⟩ := x
      show SizeInv s1.storage
      rcases update_event_ok_cases c t id p s (r, s1) hu with
        ⟨ev0, st, hg, hd, hx⟩ | ⟨hg, hx⟩
      · have hx2 : s1 = { s with storage := st } := hx
        rw [hx2]
        exact do_insert_sizeInv _ _ _ hd hs
      · have hx2 : s1 = s := hx
        rw [hx2]
        exact hs
  | attend c id =>
    simp only [stepOp]
    cases hu : attend_event c id s with
    | error f => exact hs
    | ok x =>
      obtain ⟨r, s1⟩ := x
      show SizeInv s1.storage
      rcases attend_event_ok_cases c id s (r, s1) hu with
        ⟨ev0, st, hg, hd, hx⟩ | ⟨hg, hx⟩
      · have hx2 : s1 = { s with storage := st } := hx
        rw [hx2]
        exact do_insert_sizeInv _ _ _ hd hs
      · have hx2 : s1 = s := hx
        rw [hx2]
        exact hs
  | delete c id =>
    simp only [stepOp]
    rcases delete_event_cases c id s with ⟨h1, m, hm, hok⟩ | ⟨h1, hm⟩
    · rw [h1]
      intro p hp
      exact hs p (mem_mapRemove_snd _ _ _ hp)
    · rw [h1]
      exact hs
  | read id => exact hs
  | restart => exact hs

theorem runOps_sizeInv (ops : List Op) : ∀ s : State, SizeInv s.storage →
    SizeInv (runOps s ops).1.storage := by
  induction ops with
  | nil => exact fun s hs => hs
  | cons op ops ih =>
    intro s hs
    simp only [runOps]
    exact ih _ (stepOp_sizeInv s op hs)

theorem stepOp_noncreate (s : State) (op : Op)
    (h : ∀ c t p, op ≠ Op.create c t p) :
    (stepOp s op).1.counter = s.counter ∧ (stepOp s op).2 = none := by
  cases op with
  | create c t p => exact absurd rfl (h c t p)
  | update c t id p =>
    simp only [stepOp]
    cases hu : update_event c t id p s with
    | error f => exact ⟨rfl, rfl⟩
    | ok x =>
      obtain ⟨r, s1⟩ := x
      refine ⟨?_, rfl⟩
      show s1.counter = s.counter
      rcases update_event_ok_cases c t id p s (r, s1) hu with
        ⟨ev0, st, hg, hd, hx⟩ | ⟨hg, hx⟩
      · have hx2 : s1 = { s with storage := st } := hx
        rw [hx2]
      · have hx2 : s1 = s := hx
        rw [hx2]
  | attend c id =>
    simp only [stepOp]
    cases hu : attend_event c id s with
    | error f => exact ⟨rfl, rfl⟩
    | ok x =>
      obtain ⟨r, s1⟩ := x
      refine ⟨?_, rfl⟩
      show s1.counter = s.counter
      rcases attend_event_ok_cases c id s (r, s1) hu with
        ⟨ev0, st, hg, hd, hx⟩ | ⟨hg, hx⟩
      · have hx2 : s1 = { s with storage := st } := hx
        rw [hx2]
      · have hx2 : s1 = s := hx
        rw [hx2]
  | delete c id =>
    refine ⟨?_, rfl⟩
    show (delete_event c id s).2.counter = s.counter
    rcases delete_event_cases c id s with ⟨h1, _, _, _⟩ | ⟨h1, _⟩ <;> rw [h1]
  | read id => exact ⟨rfl, rfl⟩
  | restart => exact ⟨rfl, rfl⟩

theorem stepOp_create_ok (c : String) (t : Nat) (p : EventPayload) (s : State)
    (hsz : (encodeEvent (createdEvent c t p s.counter)).length ≤ 1024) :
    stepOp s (.create c t p) =
      ({ counter := (s.counter + 1) % 2 ^ 64,
         storage := mapInsert s.storage s.counter (createdEvent c t p s.counter) },
       some s.counter) := by
  have hid : (createdEvent c t p s.counter).id = s.counter := rfl
  simp [stepOp, create_event, do_insert, hsz, hid]

theorem stepOp_create_trap (c : String) (t : Nat) (p : EventPayload) (s : State)
    (hsz : ¬ (encodeEvent (createdEvent c t p s.counter)).length ≤ 1024) :
    stepOp s (.create c t p) = (s, none) := by
  simp [stepOp, create_event, do_insert, hsz]

theorem runOps_cons (s : State) (op : Op) (ops : List Op) :
    runOps s (op :: ops) =
      ((runOps (stepOp s op).1 ops).1,
        (stepOp s op).2.toList ++ (runOps (stepOp s op).1 ops).2) := rfl

theorem runOps_ids (ops : List Op) : ∀ s : State,
    s.counter + ops.length < 2 ^ 64 →
    List.Pairwise (· < ·) (runOps s ops).2 ∧
    ∀ i ∈ (runOps s ops).2, s.counter ≤ i := by
  induction ops with
  | nil =>
    intro s _
    exact ⟨List.Pairwise.nil, by simp [runOps]⟩
  | cons op ops ih =>
    intro s h
    rw [List.length_cons] at h
    by_cases hcr : ∃ c t p, op = Op.create c t p
    · obtain ⟨c, t, p, rfl⟩ := hcr
      by_cases hsz : (encodeEvent (createdEvent c t p s.counter)).length ≤ 1024
      · have hstep := stepOp_create_ok c t p s hsz
        have hc1 : (s.counter + 1) % 2 ^ 64 = s.counter + 1 :=
          Nat.mod_eq_of_lt (by omega)
        have hs1 : (stepOp s (Op.create c t p)).1.counter =
            (s.counter + 1) % 2 ^ 64 := by
          rw [hstep]
        have hbound : (stepOp s (Op.create c t p)).1.counter
            + ops.length < 2 ^ 64 := by
          rw [hs1, hc1]
          omega
        obtain ⟨hpw, hlb⟩ := ih _ hbound
        have hsnd : (stepOp s (Op.create c t p)).2 = some s.counter := by
          rw [hstep]
        simp only [runOps_cons, hsnd, Option.toList, List.cons_append,
          List.nil_append]
        constructor
        · rw [List.pairwise_cons]
          refine ⟨?_, hpw⟩
          intro j hj
          have h2 : (stepOp s (Op.create c t p)).1.counter ≤ j := hlb j hj
          rw [hs1, hc1] at h2
          omega
        · intro i hi
          rcases List.mem_cons.mp hi with h1 | h1
          · exact h1 ▸ Nat.le_refl _
          · have h2 : (stepOp s (Op.create c t p)).1.counter ≤ i := hlb i h1
            rw [hs1, hc1] at h2
            omega
      · have hstep := stepOp_create_trap c t p s hsz
        have hbound : s.counter + ops.length < 2 ^ 64 := by omega
        obtain ⟨hpw, hlb⟩ := ih s hbound
        simp only [runOps_cons, hstep, Option.toList, List.nil_append]
        exact ⟨hpw, hlb⟩
    · have hne : ∀ c t p, op ≠ Op.create c t p := by
        intro c t p hh
        exact hcr ⟨c, t, p, hh⟩
      obtain ⟨hco, hsn⟩ := stepOp_noncreate s op hne
      have hbound : (stepOp s op).1.counter + ops.length < 2 ^ 64 := by
        rw [hco]
        omega
      obtain ⟨hpw, hlb⟩ := ih _ hbound
      simp only [runOps_cons, hsn, Option.toList, List.nil_append]
      refine ⟨hpw, ?_⟩
      intro i hi
      have h2 := hlb i hi
      rw [hco] at h2
      exact h2

theorem mem_fst_mapInsert (st : Storage) (id : Nat) (e : Event) (k : Nat)
    (h : k ∈ (mapInsert st id e).map Prod.fst) :
    k = id ∨ k ∈ st.map Prod.fst := by
  rcases List.mem_map.mp h with ⟨p, hp, hk⟩
  rcases mem_mapInsert _ _ _ _ hp with h1 | h1
  · left
    rw [← hk, h1]
  · right
    exact hk ▸ List.mem_map_of_mem _ h1

theorem nodup_mapInsert (st : Storage) (id : Nat) (e : Event)
    (h : (st.map Prod.fst).Nodup) : ((mapInsert st id e).map Prod.fst).Nodup := by
  induction st with
  | nil => simp [mapInsert]
  | cons kv rest ih =>
    obtain ⟨k, v⟩ := kv
    rw [List.map_cons, List.nodup_cons] at h
    by_cases hk : k = id
    · subst hk
      rw [mapInsert, if_pos rfl, List.map_cons, List.nodup_cons]
      exact ⟨h.1, h.2⟩
    · rw [mapInsert, if_neg hk, List.map_cons, List.nodup_cons]
      refine ⟨?_, ih h.2⟩
      intro hmem
      rcases mem_fst_mapInsert _ _ _ _ hmem with h1 | h1
      · exact hk h1
      · exact h.1 h1

theorem mem_fst_mapRemove (st : Storage) (id k : Nat)
    (h : k ∈ (mapRemove st id).2.map Prod.fst) : k ∈ st.map Prod.fst := by
  rcases List.mem_map.mp h with ⟨p, hp, hk⟩
  exact hk ▸ List.mem_map_of_mem _ (mem_mapRemove_snd _ _ _ hp)

theorem nodup_mapRemove (st : Storage) (id : Nat)
    (h : (st.map Prod.fst).Nodup) : ((mapRemove st id).2.map Prod.fst).Nodup := by
  induction st with
  | nil => simp [mapRemove]
  | cons kv rest ih =>
    obtain ⟨k, v⟩ := kv
    rw [List.map_cons, List.nodup_cons] at h
    by_cases hk : k = id
    · rw [mapRemove, if_pos hk]
      exact h.2
    · rw [mapRemove, if_neg hk]
      simp only [List.map_cons, List.nodup_cons]
      refine ⟨?_, ih h.2⟩
      intro hmem
      exact h.1 (mem_fst_mapRemove _ _ _ hmem)

theorem mapGet_mapRemove_self (st : Storage) (id : Nat)
    (h : (st.map Prod.fst).Nodup) : mapGet (mapRemove st id).2 id = none := by
  induction st with
  | nil => rfl
  | cons kv rest ih =>
    obtain ⟨k, v⟩ := kv
    rw [List.map_cons, List.nodup_cons] at h
    by_cases hk : k = id
    · rw [mapRemove, if_pos hk]
      subst hk
      exact mapGet_eq_none_of_not_mem _ _ h.1
    · rw [mapRemove, if_neg hk]
      show mapGet ((k, v) :: (mapRemove rest id).2) id = none
      rw [mapGet, if_neg hk]
      exact ih h.2

/-- Structural invariant of reachable states: record keys are unique,
strictly below the counter, and each record's `id` field equals its key. -/
def KeyInv (s : State) : Prop :=
  (s.storage.map Prod.fst).Nodup ∧
  (∀ p ∈ s.storage, p.1 < s.counter) ∧
  (∀ p ∈ s.storage, p.2.id = p.1)

theorem keyInv_fresh : KeyInv freshState := by
  refine ⟨List.nodup_nil, ?_, ?_⟩ <;> intro p hp <;> simp [freshState] at hp

theorem update_event_ok_storage (c : String) (t : Nat) (id : Nat)
    (p : EventPayload) (s : State) (x : Except Error Event × State)
    (h : update_event c t id p s = .ok x) :
    (∃ event0 ev, mapGet s.storage id = some event0 ∧ ev.id = event0.id ∧
      (encodeEvent ev).length ≤ 1024 ∧
      x.2 = { s with storage := mapInsert s.storage ev.id ev }) ∨
    (mapGet s.storage id = none ∧ x.2 = s) := by
  rcases update_event_ok_cases c t id p s x h with ⟨ev0, st, hg, hd, hx⟩ | hh
  · obtain ⟨hst, hsz⟩ := do_insert_ok _ _ _ hd
    refine Or.inl ⟨ev0,
      { ev0 with eventDescription := p.eventDescription,
                 eventTitle := p.eventTitle,
                 eventLocation := p.eventLocation,
                 eventCardImgUrl := p.eventCardImgUrl,
                 updated_at := some t }, hg, rfl, hsz, ?_⟩
    rw [hx, hst]
  · exact Or.inr hh

theorem attend_event_ok_storage (c : String) (id : Nat) (s : State)
    (x : Except Error Event × State) (h : attend_event c id s = .ok x) :
    (∃ event0 ev, mapGet s.storage id = some event0 ∧ ev.id = event0.id ∧
      (encodeEvent ev).length ≤ 1024 ∧
      x.2 = { s with storage := mapInsert s.storage ev.id ev }) ∨
    (mapGet s.storage id = none ∧ x.2 = s) := by
  rcases attend_event_ok_cases c id s x h with ⟨ev0, st, hg, hd, hx⟩ | hh
  · obtain ⟨hst, hsz⟩ := do_insert_ok _ _ _ hd
    refine Or.inl ⟨ev0, { ev0 with attendees := ev0.attendees ++ [c] },
      hg, rfl, hsz, ?_⟩
    rw [hx, hst]
  · exact Or.inr hh

theorem stepOp_keyInv (s : State) (op : Op) (hk : KeyInv s)
    (hc : s.counter + 1 < 2 ^ 64) :
    KeyInv (stepOp s op).1 ∧ s.counter ≤ (stepOp s op).1.counter ∧
    (stepOp s op).1.counter ≤ s.counter + 1 := by
  obtain ⟨hnd, hlt, hco⟩ := hk
  cases op with
  | create c t p =>
    by_cases hsz : (encodeEvent (createdEvent c t p s.counter)).length ≤ 1024
    · rw [stepOp_create_ok c t p s hsz]
      have hc1 : (s.counter + 1) % 2 ^ 64 = s.counter + 1 := Nat.mod_eq_of_lt hc
      refine ⟨⟨nodup_mapInsert _ _ _ hnd, ?_, ?_⟩, ?_, ?_⟩
      · intro q hq
        show q.1 < (s.counter + 1) % 2 ^ 64
        rw [hc1]
        rcases mem_mapInsert _ _ _ _ hq with h1 | h1
        · rw [h1]
          omega
        · exact Nat.lt_succ_of_lt (hlt q h1)
      · intro q hq
        rcases mem_mapInsert _ _ _ _ hq with h1 | h1
        · rw [h1]
          rfl
        · exact hco q h1
      · show s.counter ≤ (s.counter + 1) % 2 ^ 64
        rw [hc1]
        omega
      · show (s.counter + 1) % 2 ^ 64 ≤ s.counter + 1
        rw [hc1]
    · rw [stepOp_create_trap c t p s hsz]
      exact ⟨⟨hnd, hlt, hco⟩, Nat.le_refl _, Nat.le_succ _⟩
  | update c t id p =>
    cases hu : update_event c t id p s with
    | error f =>
      have hred : stepOp s (Op.update c t id p) = (s, none) := by
        simp [stepOp, hu]
      rw [hred]
      exact ⟨⟨hnd, hlt, hco⟩, Nat.le_refl _, Nat.le_succ _⟩
    | ok x =>
      obtain ⟨r, s1⟩ := x
      have hred : stepOp s (Op.update c t id p) = (s1, none) := by
        simp [stepOp, hu]
      rw [hred]
      rcases update_event_ok_storage c t id p s (r, s1) hu with
        ⟨ev0, ev, hg, hide, hsz, hx⟩ | ⟨hg, hx⟩
      · have hx2 : s1 = { s with storage := mapInsert s.storage ev.id ev } := hx
        rw [hx2]
        have hm := mapGet_eq_some_mem _ _ _ hg
        have hid0 : ev0.id = id := hco _ hm
        have hltid : id < s.counter := hlt _ hm
        refine ⟨⟨nodup_mapInsert _ _ _ hnd, ?_, ?_⟩, Nat.le_refl _, Nat.le_succ _⟩
        · intro q hq
          rcases mem_mapInsert _ _ _ _ hq with h1 | h1
          · rw [h1]
            show ev.id < s.counter
            rw [hide, hid0]
            exact hltid
          · exact hlt _ h1
        · intro q hq
          rcases mem_mapInsert _ _ _ _ hq with h1 | h1
          · rw [h1]
          · exact hco _ h1
      · have hx2 : s1 = s := hx
        rw [hx2]
        exact ⟨⟨hnd, hlt, hco⟩, Nat.le_refl _, Nat.le_succ _⟩
  | attend c id =>
    cases hu : attend_event c id s with
    | error f =>
      have hred : stepOp s (Op.attend c id) = (s, none) := by
        simp [stepOp, hu]
      rw [hred]
      exact ⟨⟨hnd, hlt, hco⟩, Nat.le_refl _, Nat.le_succ _⟩
    | ok x =>
      obtain ⟨r, s1⟩ := x
      have hred : stepOp s (Op.attend c id) = (s1, none) := by
        simp [stepOp, hu]
      rw [hred]
      rcases attend_event_ok_storage c id s (r, s1) hu with
        ⟨ev0, ev, hg, hide, hsz, hx⟩ | ⟨hg, hx⟩
      · have hx2 : s1 = { s with storage := mapInsert s.storage ev.id ev } := hx
        rw [hx2]
        have hm := mapGet_eq_some_mem _ _ _ hg
        have hid0 : ev0.id = id := hco _ hm
        have hltid : id < s.counter := hlt _ hm
        refine ⟨⟨nodup_mapInsert _ _ _ hnd, ?_, ?_⟩, Nat.le_refl _, Nat.le_succ _⟩
        · intro q hq
          rcases mem_mapInsert _ _ _ _ hq with h1 | h1
          · rw [h1]
            show ev.id < s.counter
            rw [hide, hid0]
            exact hltid
          · exact hlt _ h1
        · intro q hq
          rcases mem_mapInsert _ _ _ _ hq with h1 | h1
          · rw [h1]
          · exact hco _ h1
      · have hx2 : s1 = s := hx
        rw [hx2]
        exact ⟨⟨hnd, hlt, hco⟩, Nat.le_refl _, Nat.le_succ _⟩
  | delete c id =>
    rcases delete_event_cases c id s with ⟨h1, m, hm, hok⟩ | ⟨h1, hm⟩
    · have hst : (stepOp s (Op.delete c id)).1 =
          { s with storage := (mapRemove s.storage id).2 } := h1
      rw [hst]
      refine ⟨⟨nodup_mapRemove _ _ hnd, ?_, ?_⟩, Nat.le_refl _, Nat.le_succ _⟩
      · intro q hq
        exact hlt _ (mem_mapRemove_snd _ _ _ hq)
      · intro q hq
        exact hco _ (mem_mapRemove_snd _ _ _ hq)
    · have hst : (stepOp s (Op.delete c id)).1 = s := h1
      rw [hst]
      exact ⟨⟨hnd, hlt, hco⟩, Nat.le_refl _, Nat.le_succ _⟩
  | read id => exact ⟨⟨hnd, hlt, hco⟩, Nat.le_refl _, Nat.le_succ _⟩
  | restart => exact ⟨⟨hnd, hlt, hco⟩, Nat.le_refl _, Nat.le_succ _⟩

theorem runOps_keyInv (ops : List Op) : ∀ s : State, KeyInv s →
    s.counter + ops.length < 2 ^ 64 →
    KeyInv (runOps s ops).1 ∧
    (runOps s ops).1.counter ≤ s.counter + ops.length := by
  induction ops with
  | nil =>
    intro s hk _
    exact ⟨hk, Nat.le_refl _⟩
  | cons op ops ih =>
    intro s hk h
    rw [List.length_cons] at h
    have hc : s.counter + 1 < 2 ^ 64 := by omega
    obtain ⟨hk1, hge, hle⟩ := stepOp_keyInv s op hk hc
    have hb : (stepOp s op).1.counter + ops.length < 2 ^ 64 := by omega
    obtain ⟨hk2, hle2⟩ := ih _ hk1 hb
    rw [runOps_cons]
    refine ⟨hk2, ?_⟩
    show (runOps (stepOp s op).1 ops).1.counter ≤ s.counter + (op :: ops).length
    rw [List.length_cons]
    omega

/-- Payload of the spec's concrete scenario:
`{title:"Launch", description:"D", location:"HQ", image_url:"u"}`. -/
def launchPayload : EventPayload :=
  { eventDescription := "D", eventTitle := "Launch", eventLocation := "HQ",
    eventCardImgUrl := "u" }

/-- The record produced by the first create of the scenario. -/
def evA : Event := createdEvent "A" 5 launchPayload 0

/-- State holding just `evA` under id 0, with the counter at 1. -/
def s0 : State := { counter := 1, storage := [(0, evA)] }

/-- C6: the codec is a bidirectional inverse pair: decoding an encoded
event yields the event back, and re-encoding whatever a produced buffer
decodes to yields the same buffer. -/
theorem codec_round_trip (e : Event) (hv : ValidEvent e)
    (hsz : (encodeEvent e).length ≤ 1024) :
    decodeEvent (encodeEvent e) = some e ∧
    ∀ b, b = encodeEvent e → ∀ e2, decodeEvent b = some e2 →
      encodeEvent e2 = b := by
  have h1 := decodeEvent_encodeEvent e hv
  refine ⟨h1, ?_⟩
  intro b hb e2 h2
  subst hb
  rw [h1] at h2
  cases h2
  rfl

theorem codec_round_trip_witness :
    (ValidEvent evA ∧ (encodeEvent evA).length ≤ 1024) ∧
    (decodeEvent (encodeEvent evA) = some evA ∧
     ∀ b, b = encodeEvent evA → ∀ e2, decodeEvent b = some e2 →
       encodeEvent e2 = b) :=
  ⟨⟨by decide, by decide⟩, codec_round_trip evA (by decide) (by decide)⟩

/-- C7: an encoding longer than the 1024-byte bound makes the insert trap
(`Fatal`, not a domain `Error`), and consequently every record stored in
any state reachable from the fresh canister encodes to at most 1024
bytes. -/
theorem stored_records_bounded :
    (∀ (e : Event) (st : Storage), 1024 < (encodeEvent e).length →
      do_insert e st = .error .valueTooLarge) ∧
    ∀ (ops : List Op) (id : Nat) (e : Event),
      mapGet (runOps freshState ops).1.storage id = some e →
      (encodeEvent e).length ≤ 1024 := by
  refine ⟨fun e st h => do_insert_oversize e st h, ?_⟩
  intro ops id e hg
  have hs : SizeInv (runOps freshState ops).1.storage := by
    refine runOps_sizeInv ops freshState ?_
    intro p hp
    simp [freshState] at hp
  exact hs (id, e) (mapGet_eq_some_mem _ _ _ hg)

/-- An event whose description alone is 300 characters, hence far past the
1024-byte encoding bound. -/
def bigEvent : Event :=
  { evA with eventDescription := String.mk (List.replicate 300 (Char.ofNat 97)) }

set_option maxRecDepth 8000 in
theorem stored_records_bounded_witness :
    (1024 < (encodeEvent bigEvent).length ∧
      do_insert bigEvent [] = .error .valueTooLarge) ∧
    (mapGet (runOps freshState [Op.create "A" 5 launchPayload]).1.storage 0 =
        some evA ∧
      (encodeEvent evA).length ≤ 1024) :=
  ⟨⟨by decide, stored_records_bounded.1 bigEvent [] (by decide)⟩,
   ⟨by decide,
    stored_records_bounded.2 [Op.create "A" 5 launchPayload] 0 evA (by decide)⟩⟩

/-- C8: an event returned by `create_event` is immediately readable back,
identical, through `get_event` at its id. -/
theorem create_then_get (c : String) (t : Nat) (p : EventPayload) (s : State)
    (e : Event) (s1 : State) (h : create_event c t p s = .ok (some e, s1)) :
    get_event e.id s1 = .ok e := by
  obtain ⟨h1, h2, h3, h4⟩ := create_event_ok c t p s (some e, s1) h
  have he : e = createdEvent c t p s.counter := Option.some.inj h1
  subst he
  have hid : (createdEvent c t p s.counter).id = s.counter := rfl
  rw [get_event, _get_event, h3, hid, mapGet_mapInsert_self]

/-- The state after the scenario's first create. -/
def s0run : State :=
  { counter := 1 % 2 ^ 64, storage := [(0, evA)] }

theorem create_then_get_witness :
    create_event "A" 5 launchPayload freshState = .ok (some evA, s0run) ∧
    get_event evA.id s0run = .ok evA :=
  ⟨by rfl, create_then_get "A" 5 launchPayload freshState evA s0run (by rfl)⟩

/-- C10: whenever `create_event` completes without trapping it returns
`Some(event)`; the `None` branch of its `Option` return type is dead. -/
theorem create_event_never_none (c : String) (t : Nat) (p : EventPayload)
    (s : State) (x : Option Event × State) (h : create_event c t p s = .ok x) :
    x.1.isSome := by
  obtain ⟨h1, _, _, _⟩ := create_event_ok c t p s x h
  rw [h1]
  rfl

theorem create_event_never_none_witness :
    create_event "A" 5 launchPayload freshState = .ok (some evA, s0run) ∧
    ((some evA, s0run) : Option Event × State).1.isSome :=
  ⟨by rfl,
   create_event_never_none "A" 5 launchPayload freshState (some evA, s0run)
     (by rfl)⟩

theorem create_event_eq_ok (c : String) (t : Nat) (p : EventPayload)
    (s : State)
    (hsz : (encodeEvent (createdEvent c t p s.counter)).length ≤ 1024) :
    create_event c t p s = .ok (some (createdEvent c t p s.counter),
      { counter := (s.counter + 1) % 2 ^ 64,
        storage := mapInsert s.storage s.counter (createdEvent c t p s.counter) }) := by
  have hid : (createdEvent c t p s.counter).id = s.counter := rfl
  simp [create_event, do_insert, hsz, hid]

/-- C4 counterexample: from the fresh state the very first `create_event`
hands out id 0, not id 1 — `ID_COUNTER.set` returns the previous counter
value and the cell is initialized to 0. -/
theorem first_create_id_zero_not_one :
    (create_event "A" 0 launchPayload freshState).toOption.map
        (fun x => x.1.map Event.id) = some (some 0) ∧
    (create_event "A" 0 launchPayload freshState).toOption.map
        (fun x => x.1.map Event.id) ≠ some (some 1) := by
  refine ⟨by rfl, ?_⟩
  intro h
  rw [show (create_event "A" 0 launchPayload freshState).toOption.map
      (fun x => x.1.map Event.id) = some (some 0) from rfl] at h
  simp at h

/-- C4 (amended): from the fresh state the first `create_event` by identity
`A` with the scenario payload returns an event with id = 0 (the counter's
initial value), owner = `A` and an empty attendee list, provided the
caller string keeps the record inside the encoding bound. -/
theorem first_create_event (A : String) (t : Nat)
    (hsz : (encodeEvent (createdEvent A t launchPayload 0)).length ≤ 1024) :
    ∃ e s1, create_event A t launchPayload freshState = .ok (some e, s1) ∧
      e.id = 0 ∧ e.owner = A ∧ e.attendees = [] := by
  have hsz2 : (encodeEvent (createdEvent A t launchPayload
      freshState.counter)).length ≤ 1024 := hsz
  exact ⟨createdEvent A t launchPayload 0, _,
    create_event_eq_ok A t launchPayload freshState hsz2, rfl, rfl, rfl⟩

set_option maxRecDepth 8000 in
theorem first_create_event_witness :
    (encodeEvent (createdEvent "A" 0 launchPayload 0)).length ≤ 1024 ∧
    ∃ e s1, create_event "A" 0 launchPayload freshState = .ok (some e, s1) ∧
      e.id = 0 ∧ e.owner = "A" ∧ e.attendees = [] :=
  ⟨by decide, first_create_event "A" 0 (by decide)⟩

/-- The payload of a non-owner's update attempt. -/
def payB : EventPayload :=
  { eventDescription := "D2", eventTitle := "L2", eventLocation := "HQ2",
    eventCardImgUrl := "u2" }

/-- The record `update_event` by caller "B" produces from `evA`. -/
def evB : Event :=
  { evA with eventDescription := "D2", eventTitle := "L2",
             eventLocation := "HQ2", eventCardImgUrl := "u2",
             updated_at := some 9 }

/-- Storage state after the unauthorized update. -/
def s0B : State := { counter := 1, storage := [(0, evB)] }

set_option maxRecDepth 8000 in
/-- C1 (code bug evidence): `update_event` never reads `caller()` and the
`Error` enum has no `NotAuthorized` variant, so caller "B" freely rewrites
the record owned by "A": the call succeeds and the stored record changes. -/
theorem update_event_ignores_ownership :
    (runOps freshState [Op.create "A" 5 launchPayload]).1 = s0 ∧
    evA.owner = "A" ∧ "B" ≠ "A" ∧
    update_event "B" 9 0 payB s0 = .ok (.ok evB, s0B) ∧
    mapGet s0B.storage 0 = some evB ∧ evB ≠ evA :=
  ⟨by rfl, by rfl, by decide, by rfl, by rfl, by decide⟩

/-- `evA` after one attendance by "B". -/
def evA1 : Event := { evA with attendees := ["B"] }

/-- `evA` after two attendances by "B" — a duplicate entry. -/
def evA2 : Event := { evA with attendees := ["B", "B"] }

/-- State after the first attend call. -/
def s1A : State := { counter := 1, storage := [(0, evA1)] }

/-- State after the second attend call. -/
def s2A : State := { counter := 1, storage := [(0, evA2)] }

set_option maxRecDepth 8000 in
/-- C2 (code bug evidence): `attend_event` pushes the caller without any
membership check and the `Error` enum has no `AlreadyAttending` variant:
the same caller attends twice, both calls succeed, and the stored attendee
list holds a duplicate. -/
theorem attend_event_allows_duplicates :
    (runOps freshState [Op.create "A" 5 launchPayload]).1 = s0 ∧
    attend_event "B" 0 s0 = .ok (.ok evA1, s1A) ∧
    attend_event "B" 0 s1A = .ok (.ok evA2, s2A) ∧
    ¬ evA2.attendees.Nodup :=
  ⟨by rfl, by rfl, by rfl, by decide⟩

/-- State after the unauthorized delete: the record is gone. -/
def s0del : State := { counter := 1, storage := [] }

set_option maxRecDepth 8000 in
/-- C3 (code bug evidence): `delete_event` never reads `caller()` and the
`Error` enum has no `NotAuthorized` variant, so caller "B" deletes the
record owned by "A": the call succeeds and the record is removed. -/
theorem delete_event_ignores_ownership :
    (runOps freshState [Op.create "A" 5 launchPayload]).1 = s0 ∧
    evA.owner = "A" ∧ "B" ≠ "A" ∧
    delete_event "B" 0 s0 = (.ok evA, s0del) ∧
    mapGet s0del.storage 0 = none :=
  ⟨by rfl, by rfl, by decide, by rfl, by rfl⟩

theorem encodeEvent_length_id (e : Event) (v : Nat) :
    (encodeEvent { e with id := v }).length = (encodeEvent e).length := by
  simp [encodeEvent, encU64, List.length_append, length_natToBytesLE]

theorem runOps_replicate_create (c : String) (t : Nat) (p : EventPayload)
    (hsz : ∀ id : Nat, (encodeEvent (createdEvent c t p id)).length ≤ 1024) :
    ∀ (n : Nat) (s : State), s.counter < 2 ^ 64 →
    (runOps s (List.replicate n (Op.create c t p))).2 =
      (List.range n).map (fun i => (s.counter + i) % 2 ^ 64) := by
  intro n
  induction n with
  | zero =>
    intro s _
    simp [runOps]
  | succ n ih =>
    intro s h
    have hstep := stepOp_create_ok c t p s (hsz s.counter)
    have hs1c : (stepOp s (Op.create c t p)).1.counter =
        (s.counter + 1) % 2 ^ 64 := by
      rw [hstep]
    have hlt2 : (stepOp s (Op.create c t p)).1.counter < 2 ^ 64 := by
      rw [hs1c]
      exact Nat.mod_lt _ (by norm_num)
    have hsnd : (stepOp s (Op.create c t p)).2 = some s.counter := by
      rw [hstep]
    simp only [List.replicate_succ, runOps_cons]
    rw [hsnd, ih _ hlt2, hs1c]
    simp only [Option.toList, List.cons_append, List.nil_append]
    rw [List.range_succ_eq_map, List.map_cons, List.map_map]
    congr 1
    · show s.counter = (s.counter + 0) % 2 ^ 64
      rw [Nat.add_zero, Nat.mod_eq_of_lt h]
    · have hfe : (fun i => ((s.counter + 1) % 2 ^ 64 + i) % 2 ^ 64) =
          ((fun i => (s.counter + i) % 2 ^ 64) ∘ Nat.succ) := by
        funext i
        show ((s.counter + 1) % 2 ^ 64 + i) % 2 ^ 64 =
          (s.counter + Nat.succ i) % 2 ^ 64
        rw [Nat.mod_add_mod]
        congr 1
        omega
      rw [hfe]

theorem createdEvent_size_any_id (id : Nat) :
    (encodeEvent (createdEvent "A" 0 launchPayload id)).length ≤ 1024 := by
  have hre : createdEvent "A" 0 launchPayload id =
      { createdEvent "A" 0 launchPayload 0 with id := id } := rfl
  rw [hre, encodeEvent_length_id]
  decide

/-- C5 (amended): over any request sequence shorter than `2 ^ 64` starting
from the fresh state — creates, updates, attends, deletes, reads and
restarts interleaved — the ids handed out by `create_event` are strictly
increasing and never repeat. -/
theorem create_ids_strictly_increasing (ops : List Op)
    (h : ops.length < 2 ^ 64) :
    List.Pairwise (· < ·) (runOps freshState ops).2 ∧
    (runOps freshState ops).2.Nodup := by
  have hh := runOps_ids ops freshState (by show 0 + ops.length < 2 ^ 64; omega)
  exact ⟨hh.1, hh.1.imp Nat.ne_of_lt⟩

/-- A short mixed workload exercising a restart. -/
def demoOps : List Op :=
  [Op.create "A" 5 launchPayload, Op.restart, Op.attend "B" 0,
   Op.create "B" 6 launchPayload]

set_option maxRecDepth 8000 in
theorem create_ids_strictly_increasing_witness :
    demoOps.length < 2 ^ 64 ∧
    (List.Pairwise (· < ·) (runOps freshState demoOps).2 ∧
      (runOps freshState demoOps).2.Nodup) :=
  ⟨by norm_num [demoOps], create_ids_strictly_increasing demoOps (by norm_num [demoOps])⟩

/-- C5 counterexample: the id counter is a `u64` that wraps, so a sequence
of `2 ^ 64 + 1` creates hands out id 0 twice — the literal claim over every
sequence fails at this (astronomically long) input. -/
theorem create_ids_repeat_at_wrap :
    ¬ ((runOps freshState
        (List.replicate (2 ^ 64 + 1) (Op.create "A" 0 launchPayload))).2).Nodup := by
  rw [runOps_replicate_create "A" 0 launchPayload createdEvent_size_any_id
    (2 ^ 64 + 1) freshState (by norm_num [freshState])]
  intro hnd
  have hinj := List.inj_on_of_nodup_map hnd
  have h1 : (0 : Nat) ∈ List.range (2 ^ 64 + 1) := List.mem_range.mpr (by norm_num)
  have h2 : (2 ^ 64 : Nat) ∈ List.range (2 ^ 64 + 1) :=
    List.mem_range.mpr (by norm_num)
  have h3 : (freshState.counter + 0) % 2 ^ 64 =
      (freshState.counter + 2 ^ 64) % 2 ^ 64 := by
    show (0 + 0) % 2 ^ 64 = (0 + 2 ^ 64) % 2 ^ 64
    simp
  have := hinj h1 h2 h3
  simp at this

/-- C9 (amended): in any reachable state, a successful `delete_event(id)`
makes an immediate `get_event(id)` return `NotFound`, and as long as the
total workload stays under `2 ^ 64` requests the deleted id is never handed
out again by a later `create_event`. -/
theorem delete_then_get_not_found (ops0 : List Op) (c : String) (id : Nat)
    (ev : Event) (s1 : State) (ops : List Op)
    (hlen : ops0.length + ops.length < 2 ^ 64)
    (hdel : delete_event c id (runOps freshState ops0).1 = (.ok ev, s1)) :
    get_event id s1 =
      .error (.NotFound ("Event with id=" ++ toString id ++ " not found")) ∧
    id ∉ (runOps s1 ops).2 := by
  have h0 : freshState.counter = 0 := rfl
  have hki := runOps_keyInv ops0 freshState keyInv_fresh
    (by rw [h0]; omega)
  obtain ⟨⟨hnd, hlt, hco⟩, hcb⟩ := hki
  have hcb2 : (runOps freshState ops0).1.counter ≤ ops0.length := by omega
  rcases delete_event_cases c id (runOps freshState ops0).1 with
    ⟨h1, m, hm, hok⟩ | ⟨h1, hm⟩
  · have hs1 : s1 = { (runOps freshState ops0).1 with
        storage := (mapRemove (runOps freshState ops0).1.storage id).2 } := by
      have h2 : (delete_event c id (runOps freshState ops0).1).2 = s1 := by
        rw [hdel]
      rw [← h2, h1]
    have hidlt : id < (runOps freshState ops0).1.counter :=
      hlt _ (mapRemove_fst_mem _ _ _ hm)
    constructor
    · have hgn : mapGet s1.storage id = none := by
        rw [hs1]
        exact mapGet_mapRemove_self _ _ hnd
      rw [get_event, _get_event, hgn]
    · intro hmem2
      have hc1 : s1.counter = (runOps freshState ops0).1.counter := by
        rw [hs1]
      have hb2 : s1.counter + ops.length < 2 ^ 64 := by
        rw [hc1]
        omega
      have hlb := (runOps_ids ops s1 hb2).2 id hmem2
      rw [hc1] at hlb
      omega
  · exfalso
    have hfst : (delete_event c id (runOps freshState ops0).1).1 = .ok ev := by
      rw [hdel]
    rcases hmm : mapRemove (runOps freshState ops0).1.storage id with ⟨rr, st⟩
    rw [hmm] at hm
    have hrr : rr = none := hm
    subst hrr
    simp [delete_event, hmm] at hfst

set_option maxRecDepth 8000 in
theorem delete_then_get_not_found_witness :
    (([Op.create "A" 5 launchPayload] : List Op).length +
        ([Op.create "C" 7 launchPayload] : List Op).length < 2 ^ 64 ∧
      delete_event "A" 0 (runOps freshState [Op.create "A" 5 launchPayload]).1 =
        (.ok evA, s0del)) ∧
    (get_event 0 s0del =
        .error (.NotFound ("Event with id=" ++ toString 0 ++ " not found")) ∧
      0 ∉ (runOps s0del [Op.create "C" 7 launchPayload]).2) :=
  ⟨⟨by decide, by rfl⟩,
    delete_then_get_not_found [Op.create "A" 5 launchPayload] "A" 0 evA s0del
      [Op.create "C" 7 launchPayload] (by decide) (by rfl)⟩

set_option maxRecDepth 8000 in
/-- C9 counterexample: the u64 counter wraps, so after deleting id 0 a
workload of `2 ^ 64` further creates hands id 0 out again — the literal
"never reassigned" claim fails at this (astronomically long) input. -/
theorem deleted_id_reassigned_at_wrap :
    (runOps freshState
        [Op.create "A" 5 launchPayload, Op.delete "A" 0]).1 = s0del ∧
    get_event 0 s0del = .error (.NotFound "Event with id=0 not found") ∧
    0 ∈ (runOps s0del
        (List.replicate (2 ^ 64) (Op.create "A" 0 launchPayload))).2 := by
  refine ⟨by rfl, by rfl, ?_⟩
  rw [runOps_replicate_create "A" 0 launchPayload createdEvent_size_any_id
    (2 ^ 64) s0del (by norm_num [s0del])]
  refine List.mem_map.mpr ⟨2 ^ 64 - 1, List.mem_range.mpr (by norm_num), ?_⟩
  show (s0del.counter + (2 ^ 64 - 1)) % 2 ^ 64 = 0
  norm_num [s0del]
